import Mathlib

/-!
Shallow embedding of the gait repository's `git wire` core, with proofs
checking the natural-language specification against the code.

Embedded components:
* `crates/wire/src/common/parse.rs` — config validation
  (`check_parsed_item_soundness`, the soundness loop and the name-uniqueness
  loop of `parse_dotgitwire_file`), over a model of Rust
  `std::path::Path::components()` for Unix-style paths;
* `crates/wire/src/check.rs` — `compare_with_temp`, over a model of the
  `folder_compare` crate's `FolderCompare` on finite file trees;
* `src/remote/cache/key_generator.rs` — `generate_key` and
  `generate_url_branch_key`, over a model of Rust's `DefaultHasher`
  (SipHash-1-3 with zero keys) and `Hash for str`;
* `crates/wire/src/cache/lock.rs` — `RepositoryLockManager`'s
  `acquire_lock` and `try_acquire_lock`, as sequential state-passing
  functions plus an interleaving model for the concurrent claims.
-/

deriving instance DecidableEq for Except

namespace GitWire

/-! ## Path components, modelling `std::path::Path::components()` (Unix)

Rust's `components()` normalizes: repeated separators are ignored,
`.` segments are dropped except a leading one on a relative path, and a
path starting with `/` yields a `RootDir` component. On Unix there are no
`Prefix` components, so the model omits that constructor.
-/

inductive PathComponent where
  | rootDir
  | curDir
  | parentDir
  | normal (name : String)
deriving DecidableEq, Repr

/-- Split a character list at every occurrence of `sep`, keeping empty
pieces (the char-level equivalent of `String.splitOn` for a one-character
separator). -/
def splitChars (sep : Char) : List Char → List (List Char)
  | [] => [[]]
  | c :: t =>
    let r := splitChars sep t
    if c = sep then [] :: r
    else
      match r with
      | s :: rest => (c :: s) :: rest
      | [] => [[c]]

/-- Non-empty `/`-separated segments of a path string. -/
def pathSegs (s : String) : List String :=
  ((splitChars '/' s.data).map String.mk).filter (fun t => t ≠ "")

/-- Whether the path string is absolute (has a root): it starts with `/`. -/
def hasRoot (s : String) : Bool :=
  match s.data with
  | '/' :: _ => true
  | _ => false

/-- Convert segments after the leading position: `.` is normalized away,
`..` becomes `parentDir`, anything else is a `normal` component. -/
def convComps : List String → List PathComponent
  | [] => []
  | seg :: t =>
    if seg = "." then convComps t
    else if seg = ".." then PathComponent.parentDir :: convComps t
    else PathComponent.normal seg :: convComps t

/-- Components of a path string, following Rust `Path::components()`:
a leading `/` gives `rootDir`; a leading `.` segment of a relative path is
kept as `curDir`; all other `.` segments are normalized away. -/
def pathComponents (s : String) : List PathComponent :=
  if hasRoot s then
    PathComponent.rootDir :: convComps (pathSegs s)
  else
    match pathSegs s with
    | [] => []
    | seg :: rest =>
      if seg = "." then PathComponent.curDir :: convComps rest
      else convComps (seg :: rest)

/-! ## Config entries and parse errors

The `Parsed` struct and `ErrorType` enum are declared in a module of the
wire crate that is not among the provided sources; their fields and
variants are reconstructed from the use sites in `common/parse.rs` and
`check.rs` and from spec section 6 (`name?`, `src`, `dst`). Only the
fields read by the validation code are modelled. -/

structure Parsed where
  name : Option String
  src : String
  dst : String
deriving DecidableEq, Repr

inductive ErrorType where
  | RepositoryRootPathCommand
  | RepositoryRootPathParse
  | DotGitWireFileOpen
  | DotGitWireFileParse
  | DotGitWireFileSoundness
  | DotGitWireFileNameNotUnique
  | CheckDifferenceExecution
  | CheckDifferenceStringReplace
deriving DecidableEq, Repr

/-- Mirror of the `is_ok` closure in `check_parsed_item_soundness`
(`parse.rs` lines 81-89): root (and prefix) components are accepted,
a normal component is accepted unless it equals `.git`, and `..` and `.`
components are rejected. -/
def isOkComponent : PathComponent → Bool
  | PathComponent.rootDir => true
  | PathComponent.curDir => false
  | PathComponent.parentDir => false
  | PathComponent.normal name => name != ".git"

/-- Mirror of `check_parsed_item_soundness` (`parse.rs` lines 80-93). -/
def check_parsed_item_soundness (p : Parsed) : Bool :=
  ((pathComponents p.src).all isOkComponent)
    && ((pathComponents p.dst).all isOkComponent)

/-- Mirror of the first loop of `parse_dotgitwire_file`
(`parse.rs` lines 48-55): fail with the soundness error at the first
unsound item. -/
def soundnessLoop : List Parsed → Except ErrorType Unit
  | [] => Except.ok ()
  | p :: rest =>
    if check_parsed_item_soundness p then soundnessLoop rest
    else Except.error ErrorType.DotGitWireFileSoundness

/-- Mirror of the second loop of `parse_dotgitwire_file`
(`parse.rs` lines 57-67): walk the items with the set of names seen so
far (the `HashSet` is modelled as a list), failing when a present name
was already seen. -/
def checkNamesLoop : List String → List Parsed → Except ErrorType Unit
  | _, [] => Except.ok ()
  | seen, p :: rest =>
    match p.name with
    | some n =>
      if seen.contains n then Except.error ErrorType.DotGitWireFileNameNotUnique
      else checkNamesLoop (n :: seen) rest
    | none => checkNamesLoop seen rest

/-- Mirror of `parse_dotgitwire_file` (`parse.rs` lines 41-70) after the
file has been deserialized (file opening and JSON deserialization are
I/O done by `serde_json` and are outside the model): the soundness loop
runs first, then the name-uniqueness loop, and only then are the items
returned. The function performs no fetch and no filesystem mutation. -/
def parse_dotgitwire_file (items : List Parsed) : Except ErrorType (List Parsed) := do
  _ ← soundnessLoop items
  _ ← checkNamesLoop [] items
  Except.ok items

/-! ## File trees and the check comparison, modelling `check.rs`

A directory tree is modelled as a finite map from relative file path to
file content, as an association list. The `folder_compare` crate's
`FolderCompare::new(a, b, excluded)` (called with no exclusions) yields
`new_files` — files present under `a` and missing under `b` — and
`changed_files` — files present in both whose contents differ. -/

/-- Association-list lookup (first binding wins), shared by the file-tree
and lock-table models. -/
def assocLookup {α : Type} (k : String) : List (String × α) → Option α
  | [] => none
  | (k', v) :: t => if k = k' then some v else assocLookup k t

/-- A directory tree: file path to file content. -/
abbrev FileTree := List (String × String)

/-- Model of `FolderCompare`'s `new_files`: paths present in `a` that are
missing in `b`. -/
def newFiles (a b : FileTree) : List String :=
  (a.filter fun e => (assocLookup e.1 b).isNone).map Prod.fst

/-- Model of `FolderCompare`'s `changed_files`: paths present in both `a`
and `b` whose contents differ. -/
def changedFiles (a b : FileTree) : List String :=
  (a.filter fun e =>
    match assocLookup e.1 b with
    | some v => v != e.2
    | none => false).map Prod.fst

/-- Mirror of `compare_with_temp` (`check.rs` lines 38-95) over the two
trees it compares: `temp` is the fresh checkout subtree at the entry's
`src`, `root` the destination subtree at the entry's `dst`. The code
starts with `result = true` and downgrades it to `false` on each of the
three non-empty difference lists (`fc1.new_files`, `fc2.new_files`,
`fc2.changed_files`); the printing of offending paths and the
`CheckDifferenceStringReplace` error (impossible here, since the model's
paths are always valid strings) are not modelled. -/
def compare_with_temp (temp root : FileTree) : Except ErrorType Bool :=
  let fc1new := newFiles temp root
  let fc2new := newFiles root temp
  let fc2changed := changedFiles root temp
  let result := true
  let result := if fc1new.isEmpty then result else false
  let result := if fc2new.isEmpty then result else false
  let result := if fc2changed.isEmpty then result else false
  Except.ok result

/-! ## Cache key generation, modelling `src/remote/cache/key_generator.rs`

`CacheKeyGenerator::generate_key` feeds `url`, `branch` and (when pinned)
`commit_hash` through `DefaultHasher` and formats the 64-bit result in
lowercase hex. `DefaultHasher` is Rust's SipHash-1-3 with both keys zero;
its result is a function of the byte stream written to it. `Hash for str`
writes the string's UTF-8 bytes followed by a `0xff` terminator byte. -/

/-- UTF-8 encoding of one code point (as byte values below 256). -/
def utf8Bytes (c : Nat) : List Nat :=
  if c < 0x80 then [c]
  else if c < 0x800 then
    [0xC0 ||| (c >>> 6), 0x80 ||| (c &&& 0x3F)]
  else if c < 0x10000 then
    [0xE0 ||| (c >>> 12), 0x80 ||| ((c >>> 6) &&& 0x3F), 0x80 ||| (c &&& 0x3F)]
  else
    [0xF0 ||| (c >>> 18), 0x80 ||| ((c >>> 12) &&& 0x3F),
      0x80 ||| ((c >>> 6) &&& 0x3F), 0x80 ||| (c &&& 0x3F)]

/-- UTF-8 bytes of a string. -/
def strBytes (s : String) : List Nat :=
  (s.data.map fun c => utf8Bytes c.toNat).flatten

/-- Byte stream written by Rust's `Hash for str`: the UTF-8 bytes followed
by the `0xff` terminator. -/
def strHashBytes (s : String) : List Nat :=
  strBytes s ++ [0xff]

/-- SipHash internal state: four 64-bit words. -/
structure SipState where
  v0 : Nat
  v1 : Nat
  v2 : Nat
  v3 : Nat
deriving DecidableEq, Repr

/-- Left rotation of a 64-bit word. -/
def rotl64 (x n : Nat) : Nat :=
  ((x <<< n) ||| (x >>> (64 - n))) % (2 ^ 64)

/-- One SipHash round. -/
def sipRound (s : SipState) : SipState :=
  let v0 := (s.v0 + s.v1) % (2 ^ 64)
  let v1 := rotl64 s.v1 13
  let v1 := v1 ^^^ v0
  let v0 := rotl64 v0 32
  let v2 := (s.v2 + s.v3) % (2 ^ 64)
  let v3 := rotl64 s.v3 16
  let v3 := v3 ^^^ v2
  let v0 := (v0 + v3) % (2 ^ 64)
  let v3 := rotl64 v3 21
  let v3 := v3 ^^^ v0
  let v2 := (v2 + v1) % (2 ^ 64)
  let v1 := rotl64 v1 17
  let v1 := v1 ^^^ v2
  let v2 := rotl64 v2 32
  ⟨v0, v1, v2, v3⟩

/-- Little-endian word value of a byte list (first byte least
significant). -/
def leWord (bs : List Nat) : Nat :=
  bs.foldr (fun b acc => b + 256 * acc) 0

/-- Compress one 64-bit message word into the state (one round, since this
is SipHash-1-3). -/
def sipCompress (st : SipState) (m : Nat) : SipState :=
  let st := { st with v3 := st.v3 ^^^ m }
  let st := sipRound st
  { st with v0 := st.v0 ^^^ m }

/-- Consume all full 8-byte blocks, returning the final state and the
remaining short block. -/
def sipBlocks : SipState → List Nat → SipState × List Nat
  | st, b0 :: b1 :: b2 :: b3 :: b4 :: b5 :: b6 :: b7 :: rest =>
    sipBlocks (sipCompress st (leWord [b0, b1, b2, b3, b4, b5, b6, b7])) rest
  | st, rest => (st, rest)

/-- SipHash-1-3 of a byte stream with both keys zero, as used by Rust's
`DefaultHasher`: the initial state is the SipHash constants, each 8-byte
block is compressed with one round, and finalization mixes the
length-and-tail word, flips `v2` and runs three rounds. -/
def siphash13 (bytes : List Nat) : Nat :=
  let st0 : SipState :=
    ⟨0x736f6d6570736575, 0x646f72616e646f6d, 0x6c7967656e657261, 0x7465646279746573⟩
  let (st, rem) := sipBlocks st0 bytes
  let b := ((bytes.length % 256) * (2 ^ 56) + leWord rem) % (2 ^ 64)
  let st := sipCompress st b
  let st := { st with v2 := st.v2 ^^^ 0xff }
  let st := sipRound (sipRound (sipRound st))
  st.v0 ^^^ st.v1 ^^^ st.v2 ^^^ st.v3

/-- Lowercase hexadecimal rendering of a `u64`, as `format!` with `:x`
produces. -/
def hexString (n : Nat) : String :=
  String.mk (Nat.toDigits 16 n)

/-- The configuration struct consumed by the key generator
(`RepositoryConfiguration`); the `remote` flavor's declaration is not
among the provided sources, so the fields mirror the identically named
struct in `src/wire/models/repo_config.rs`, restricted to the fields the
key generator reads plus `target_path` (the checkout-method field is
omitted — nothing here reads it). -/
structure RepositoryConfiguration where
  url : String
  branch : String
  target_path : String
  filters : List String
  commit_hash : Option String
deriving DecidableEq, Repr

/-- Mirror of `CacheKeyGenerator::generate_key`
(`key_generator.rs` lines 10-24): hash the URL, the branch, and the commit
hash when present, then format the 64-bit digest in lowercase hex. -/
def generate_key (config : RepositoryConfiguration) : String :=
  let stream := strHashBytes config.url ++ strHashBytes config.branch ++
    (match config.commit_hash with
     | some commit => strHashBytes commit
     | none => [])
  hexString (siphash13 stream)

/-- Mirror of `CacheKeyGenerator::generate_url_branch_key`
(`key_generator.rs` lines 27-34). -/
def generate_url_branch_key (url : String) (branch : String) : String :=
  hexString (siphash13 (strHashBytes url ++ strHashBytes branch))

/-! ## The repository lock manager, modelling `cache/lock.rs`

`RepositoryLockManager` keeps `Arc<Mutex<HashMap<RepoUrl, Arc<Mutex<bool>>>>>`.
The model tracks, for each key, whether the per-key mutex is currently
locked (`held`) and whether it is poisoned, plus the poisoned flag of the
global map mutex. `acquire_lock` and `try_acquire_lock` are modelled as
state-passing functions describing one complete call executed without
interference; blocking of `acquire_lock` (a call that never returns) is
represented by `none`. Both functions drop their per-key guard before
returning (`lock.rs` lines 44 and 69), so a completed call leaves `held`
unchanged. -/

structure RepoLock where
  held : Bool
  poisoned : Bool
deriving DecidableEq, Repr

structure LockState where
  globalPoisoned : Bool
  locks : List (String × RepoLock)
deriving DecidableEq, Repr

/-- The lock value `Arc::new(Mutex::new(false))` inserted by `or_insert_with`. -/
def freshLock : RepoLock := ⟨false, false⟩

/-- Model of `locks.entry(url).or_insert_with(...)`: insert a fresh,
unlocked per-key mutex when the key is absent; keep the entry otherwise. -/
def ensureLock (s : LockState) (k : String) : LockState :=
  match assocLookup k s.locks with
  | some _ => s
  | none => { s with locks := s.locks ++ [(k, freshLock)] }

/-- The per-key lock stored for `k` (defaulting to a fresh lock, only used
on states where `k` is present). -/
def getLock (s : LockState) (k : String) : RepoLock :=
  (assocLookup k s.locks).getD freshLock

/-- Mirror of `acquire_lock` (`lock.rs` lines 21-47): error on a poisoned
global mutex; insert the key if absent; block (`none`) while another
caller holds the per-key mutex; error on a poisoned per-key mutex; else
acquire the guard and drop it immediately (line 44), leaving the state
with the key present and its lock not held. -/
def acquire_lock (s : LockState) (k : String) : Option (Except String LockState) :=
  if s.globalPoisoned then some (Except.error "Failed to acquire global lock")
  else if (getLock (ensureLock s k) k).held then none
  else if (getLock (ensureLock s k) k).poisoned then
    some (Except.error "Failed to acquire repository lock")
  else some (Except.ok (ensureLock s k))

/-- Mirror of `try_acquire_lock` (`lock.rs` lines 50-74): error on a
poisoned global mutex; insert the key if absent; `try_lock` maps both the
would-block case (lock held) and the poisoned case to `Ok(false)` (the
`Err(_) => Ok(false)` arm), and on success drops the guard immediately
(line 69) and returns `Ok(true)`. -/
def try_acquire_lock (s : LockState) (k : String) : Except String (LockState × Bool) :=
  if s.globalPoisoned then Except.error "Failed to acquire global lock"
  else if (getLock (ensureLock s k) k).held || (getLock (ensureLock s k) k).poisoned then
    Except.ok (ensureLock s k, false)
  else Except.ok (ensureLock s k, true)

/-- The state of `RepositoryLockManager::new()`: nothing poisoned, empty map. -/
def initLockState : LockState := ⟨false, []⟩

/-- Keys present in the lock table. -/
def lockKeys (s : LockState) : List String := s.locks.map Prod.fst

/-- One completed lock-manager call (`true` = `try_acquire_lock`,
`false` = `acquire_lock`) with the key it is given, as a state
transformer; a call that blocks or errors leaves the model state as it
was. -/
def applyLockOp (s : LockState) (op : Bool × String) : LockState :=
  if op.1 then
    match try_acquire_lock s op.2 with
    | Except.ok (s', _) => s'
    | Except.error _ => s
  else
    match acquire_lock s op.2 with
    | some (Except.ok s') => s'
    | _ => s

/-- Run a sequence of completed lock-manager calls. -/
def runLockOps (s : LockState) (ops : List (Bool × String)) : LockState :=
  ops.foldl applyLockOp s

/-- A healthy lock-manager state: no poisoned mutex and no per-key mutex
held (the state between completed calls of well-behaved callers). -/
def cleanLock (s : LockState) : Prop :=
  s.globalPoisoned = false ∧ ∀ e ∈ s.locks, e.2 = freshLock

/-- Concrete state with a poisoned global map mutex. -/
def poisonedGlobalState : LockState := ⟨true, []⟩

/-- Concrete state whose per-key mutex for `"k"` is poisoned but free. -/
def poisonedInnerState : LockState := ⟨false, [("k", ⟨false, true⟩)]⟩

/-! ## Interleaving model of two concurrent `try_acquire_lock` callers

Each call is three atomic steps, matching the code's critical sections:
holding the global mutex while running `entry().or_insert_with` (one
atomic step, since every map access happens under the global mutex), the
`try_lock` on the per-key mutex (an atomic compare-and-set), and the
immediate guard drop. A caller is identified by `Fin 2`; `innerHeld`
records which caller, if any, holds the per-key mutex. -/

inductive TryPc where
  | start
  | ready
  | holding
  | done (res : Bool)
deriving DecidableEq, Repr

structure TrySys where
  table : List String
  innerHeld : Option (Fin 2)
  pcs : Fin 2 → TryPc

/-- Insert a key into the table if absent (the observable effect of
`entry().or_insert_with` on the key set). -/
def insertKey (k : String) (t : List String) : List String :=
  if t.contains k then t else t ++ [k]

/-- One atomic step of caller `i` running `try_acquire_lock key`:
`start` runs the global-mutex section (ensure the entry exists),
`ready` runs `try_lock` — succeeding exactly when no caller holds the
per-key mutex, otherwise completing with result `false` —
`holding` drops the guard and completes with result `true`;
a finished caller has no step. -/
def tryStep (key : String) (i : Fin 2) (s : TrySys) : Option TrySys :=
  match s.pcs i with
  | TryPc.start =>
    some { s with table := insertKey key s.table,
                  pcs := Function.update s.pcs i TryPc.ready }
  | TryPc.ready =>
    match s.innerHeld with
    | none => some { s with innerHeld := some i,
                            pcs := Function.update s.pcs i TryPc.holding }
    | some _ => some { s with pcs := Function.update s.pcs i (TryPc.done false) }
  | TryPc.holding =>
    some { s with innerHeld := none,
                  pcs := Function.update s.pcs i (TryPc.done true) }
  | TryPc.done _ => none

/-- Initial system: empty table, per-key mutex free, both callers about to
start. -/
def tryInit : TrySys := ⟨[], none, fun _ => TryPc.start⟩

/-- Reachability of a system state by interleaving steps of the two
callers from the initial state. -/
inductive TryReach (key : String) : TrySys → Prop where
  | init : TryReach key tryInit
  | step {s t : TrySys} (i : Fin 2) :
      TryReach key s → tryStep key i s = some t → TryReach key t

/-- The system after caller 0's global-mutex section. -/
def tryS1 : TrySys :=
  { table := insertKey "k" [], innerHeld := none,
    pcs := Function.update (fun _ => TryPc.start) 0 TryPc.ready }

/-- The system after caller 0's successful `try_lock`, while it still
holds the per-key mutex. -/
def tryS2 : TrySys :=
  { table := tryS1.table, innerHeld := some 0,
    pcs := Function.update tryS1.pcs 0 TryPc.holding }

/-! ## Lemmas about the validation loops -/

theorem soundnessLoop_error (items : List Parsed)
    (h : ∃ p ∈ items, check_parsed_item_soundness p = false) :
    soundnessLoop items = Except.error ErrorType.DotGitWireFileSoundness := by
  induction items with
  | nil => obtain ⟨p, hp, _⟩ := h; exact absurd hp (List.not_mem_nil p)
  | cons q rest ih =>
    obtain ⟨p, hp, hpf⟩ := h
    by_cases hq : check_parsed_item_soundness q = true
    · have hpr : p ∈ rest := by
        rcases List.mem_cons.mp hp with rfl | hr
        · rw [hq] at hpf; exact absurd hpf (by simp)
        · exact hr
      simp only [soundnessLoop, hq, if_true]
      exact ih ⟨p, hpr, hpf⟩
    · simp only [soundnessLoop]
      rw [if_neg hq]

theorem soundnessLoop_ok (items : List Parsed)
    (h : ∀ p ∈ items, check_parsed_item_soundness p = true) :
    soundnessLoop items = Except.ok () := by
  induction items with
  | nil => rfl
  | cons q rest ih =>
    have hq := h q (List.mem_cons_self q rest)
    simp only [soundnessLoop, hq, if_true]
    exact ih fun p hp => h p (List.mem_cons_of_mem q hp)

theorem isOkComponent_false_of_bad (c : PathComponent)
    (hbad : c = PathComponent.curDir ∨ c = PathComponent.parentDir ∨
      c = PathComponent.normal ".git") :
    isOkComponent c = false := by
  rcases hbad with rfl | rfl | rfl <;> rfl

theorem check_soundness_false_of_bad (p : Parsed) (c : PathComponent)
    (hmem : c ∈ pathComponents p.src ∨ c ∈ pathComponents p.dst)
    (hbad : c = PathComponent.curDir ∨ c = PathComponent.parentDir ∨
      c = PathComponent.normal ".git") :
    check_parsed_item_soundness p = false := by
  have hok := isOkComponent_false_of_bad c hbad
  unfold check_parsed_item_soundness
  rcases hmem with hmem | hmem
  · have hx : (pathComponents p.src).all isOkComponent = false := by
      rw [Bool.eq_false_iff]
      intro hall
      have := List.all_eq_true.mp hall c hmem
      rw [hok] at this
      exact Bool.noConfusion this
    rw [hx, Bool.false_and]
  · have hx : (pathComponents p.dst).all isOkComponent = false := by
      rw [Bool.eq_false_iff]
      intro hall
      have := List.all_eq_true.mp hall c hmem
      rw [hok] at this
      exact Bool.noConfusion this
    rw [hx, Bool.and_false]

theorem checkNamesLoop_ok_or_dup (items : List Parsed) : ∀ seen : List String,
    checkNamesLoop seen items = Except.ok () ∨
      checkNamesLoop seen items = Except.error ErrorType.DotGitWireFileNameNotUnique := by
  induction items with
  | nil => intro seen; left; rfl
  | cons p rest ih =>
    intro seen
    match hn : p.name with
    | none => simpa only [checkNamesLoop, hn] using ih seen
    | some n =>
      by_cases hc : seen.contains n
      · right; simp only [checkNamesLoop, hn, hc, if_true]
      · simpa only [checkNamesLoop, hn, hc, if_false] using ih (n :: seen)

theorem contains_false_iff (l : List String) (a : String) :
    l.contains a = false ↔ a ∉ l := by
  rw [Bool.eq_false_iff]
  simp [List.contains]

theorem checkNamesLoop_ok_iff (items : List Parsed) : ∀ seen : List String,
    checkNamesLoop seen items = Except.ok () ↔
      ((items.filterMap Parsed.name).Nodup ∧
        ∀ n ∈ items.filterMap Parsed.name, seen.contains n = false) := by
  induction items with
  | nil => intro seen; simp [checkNamesLoop]
  | cons p rest ih =>
    intro seen
    match hn : p.name with
    | none =>
      simp only [checkNamesLoop, hn, List.filterMap_cons, List.filterMap_cons_none hn]
      exact ih seen
    | some n =>
      simp only [checkNamesLoop, hn, List.filterMap_cons]
      by_cases hc : seen.contains n = true
      · rw [if_pos hc]
        constructor
        · intro habs; exact Except.noConfusion habs
        · rintro ⟨-, hall⟩
          have h2 := hall n (List.mem_cons_self _ _)
          rw [hc] at h2
          exact Bool.noConfusion h2
      · rw [if_neg hc, ih (n :: seen)]
        have hcf : n ∉ seen := (contains_false_iff seen n).mp (Bool.eq_false_iff.mpr hc)
        simp only [contains_false_iff, List.nodup_cons, List.mem_cons]
        constructor
        · rintro ⟨hnd, hall⟩
          refine ⟨⟨fun hmem => hall n hmem (Or.inl rfl), hnd⟩, ?_⟩
          rintro m (rfl | hm)
          · exact hcf
          · exact fun hs => hall m hm (Or.inr hs)
        · rintro ⟨⟨hnr, hnd⟩, hall⟩
          refine ⟨hnd, fun m hm => ?_⟩
          rintro (rfl | hs)
          · exact hnr hm
          · exact hall m (Or.inr hm) hs

/-! ## Claim theorems about parsing -/

/-- C2 (counterexample): the claim says that a `src` containing a `.`
component makes parsing fail with the soundness error. The entry with
`src = "a/./b"` textually contains a `.` segment (shown on the char-level
split, which matches `String.splitOn "/"`), yet `parse_dotgitwire_file`
accepts it, because Rust `Path::components()` normalizes an interior `.`
segment away before `check_parsed_item_soundness` looks at it. -/
theorem parse_accepts_interior_dot_segment :
    "." ∈ (splitChars '/' "a/./b".data).map String.mk
    ∧ parse_dotgitwire_file [⟨none, "a/./b", "c"⟩] =
        Except.ok [⟨none, "a/./b", "c"⟩] := by
  constructor
  · decide
  · decide

/-- C2 (amended): if any entry's `src` or `dst` has a path component that
is `.` (as a surviving component, i.e. in leading position), `..`, or
`.git` — after the normalization Rust `Path::components()` performs, which
drops interior and trailing `.` segments — then `parse_dotgitwire_file`
fails with `DotGitWireFileSoundness`. The function is pure validation:
no fetch or filesystem mutation is modelled or performed by it. -/
theorem parse_fails_on_forbidden_component (items : List Parsed)
    (h : ∃ p ∈ items, ∃ c,
      (c ∈ pathComponents p.src ∨ c ∈ pathComponents p.dst) ∧
      (c = PathComponent.curDir ∨ c = PathComponent.parentDir ∨
        c = PathComponent.normal ".git")) :
    parse_dotgitwire_file items = Except.error ErrorType.DotGitWireFileSoundness := by
  obtain ⟨p, hp, c, hmem, hbad⟩ := h
  have hfalse := check_soundness_false_of_bad p c hmem hbad
  have hloop := soundnessLoop_error items ⟨p, hp, hfalse⟩
  unfold parse_dotgitwire_file
  rw [hloop]
  rfl

/-- Witness for C2's amended theorem: a config whose single entry has
`src = ".."` is rejected with the soundness error. -/
theorem parse_fails_on_forbidden_component_witness :
    parse_dotgitwire_file [⟨none, "..", "x"⟩] =
      Except.error ErrorType.DotGitWireFileSoundness :=
  parse_fails_on_forbidden_component [⟨none, "..", "x"⟩]
    ⟨⟨none, "..", "x"⟩, by decide, PathComponent.parentDir, by decide, by decide⟩

/-- C5 (counterexample): the claim says two entries sharing a non-empty
`name` make parsing fail with the duplicate-name error. In this config the
two entries both carry `name = some "a"`, but the first entry also has the
unsound `src = ".."`, and the soundness loop runs before the name loop, so
parsing fails with `DotGitWireFileSoundness` instead of
`DotGitWireFileNameNotUnique`. -/
theorem duplicate_name_masked_by_soundness :
    (Parsed.name ⟨some "a", "..", "x"⟩ = some "a"
      ∧ Parsed.name ⟨some "a", "y", "z"⟩ = some "a")
    ∧ parse_dotgitwire_file [⟨some "a", "..", "x"⟩, ⟨some "a", "y", "z"⟩] =
        Except.error ErrorType.DotGitWireFileSoundness
    ∧ parse_dotgitwire_file [⟨some "a", "..", "x"⟩, ⟨some "a", "y", "z"⟩] ≠
        Except.error ErrorType.DotGitWireFileNameNotUnique := by
  refine ⟨⟨rfl, rfl⟩, by decide, by decide⟩

/-- C5 (amended): for a config whose entries all pass the soundness check,
if two entries share a non-empty `name` (the present names are not
pairwise distinct), parsing fails with `DotGitWireFileNameNotUnique`; if
all present names are pairwise distinct, parsing succeeds (in particular
the name-uniqueness loop passes). -/
theorem parse_duplicate_name (items : List Parsed)
    (hsound : ∀ p ∈ items, check_parsed_item_soundness p = true) :
    (¬ (items.filterMap Parsed.name).Nodup →
      parse_dotgitwire_file items = Except.error ErrorType.DotGitWireFileNameNotUnique)
    ∧ ((items.filterMap Parsed.name).Nodup →
      parse_dotgitwire_file items = Except.ok items) := by
  have hok := soundnessLoop_ok items hsound
  constructor
  · intro hdup
    have hnames : checkNamesLoop [] items ≠ Except.ok () := by
      intro hloop
      exact hdup ((checkNamesLoop_ok_iff items []).mp hloop).1
    have herr : checkNamesLoop [] items = Except.error ErrorType.DotGitWireFileNameNotUnique := by
      rcases checkNamesLoop_ok_or_dup items [] with h | h
      · exact absurd h hnames
      · exact h
    unfold parse_dotgitwire_file
    rw [hok]
    show checkNamesLoop [] items >>= _ = _
    rw [herr]
    rfl
  · intro hnodup
    have hnames : checkNamesLoop [] items = Except.ok () :=
      (checkNamesLoop_ok_iff items []).mpr ⟨hnodup, fun n _ => rfl⟩
    unfold parse_dotgitwire_file
    rw [hok]
    show checkNamesLoop [] items >>= _ = _
    rw [hnames]
    rfl

/-- Witness for C5's amended theorem: two sound entries sharing
`name = some "a"` are rejected with the duplicate-name error, and a sound
config with distinct names parses. -/
theorem parse_duplicate_name_witness :
    parse_dotgitwire_file [⟨some "a", "s", "d"⟩, ⟨some "a", "s2", "d2"⟩] =
      Except.error ErrorType.DotGitWireFileNameNotUnique :=
  (parse_duplicate_name [⟨some "a", "s", "d"⟩, ⟨some "a", "s2", "d2"⟩]
    (by decide)).1 (by decide)

/-- C10: the soundness check accepts absolute paths — for every entry
whose `src` and `dst` components are a root component followed by normal
components none of which is `.git`, `check_parsed_item_soundness` returns
true, even though such a destination lies outside the repository root. -/
theorem soundness_accepts_absolute_paths (p : Parsed) (ns ms : List String)
    (hs : pathComponents p.src = PathComponent.rootDir :: ns.map PathComponent.normal)
    (hns : ".git" ∉ ns)
    (hd : pathComponents p.dst = PathComponent.rootDir :: ms.map PathComponent.normal)
    (hms : ".git" ∉ ms) :
    check_parsed_item_soundness p = true := by
  have hall : ∀ l : List String, ".git" ∉ l →
      (l.map PathComponent.normal).all isOkComponent = true := by
    intro l
    induction l with
    | nil => intro _; rfl
    | cons a t iht =>
      intro hl
      have ha : a ≠ ".git" := fun he => hl (he ▸ List.mem_cons_self a t)
      have hat : ".git" ∉ t := fun hm => hl (List.mem_cons_of_mem a hm)
      simp only [List.map_cons, List.all_cons, iht hat, Bool.and_true]
      exact bne_iff_ne.mpr ha
  unfold check_parsed_item_soundness
  rw [hs, hd]
  simp only [List.all_cons, hall ns hns, hall ms hms]
  rfl

/-! ## Lemmas about the check comparison -/

theorem mem_of_assocLookup {α : Type} (k : String) (v : α) (l : List (String × α)) :
    assocLookup k l = some v → (k, v) ∈ l := by
  induction l with
  | nil => intro h; exact Option.noConfusion h
  | cons e t ih =>
    intro h
    obtain ⟨k', v'⟩ := e
    simp only [assocLookup] at h
    by_cases hk : k = k'
    · rw [if_pos hk] at h
      injection h with hv
      subst hk
      subst hv
      exact List.mem_cons_self _ _
    · rw [if_neg hk] at h
      exact List.mem_cons_of_mem _ (ih h)

theorem assocLookup_isSome_of_mem {α : Type} (e : String × α) (l : List (String × α))
    (h : e ∈ l) : (assocLookup e.1 l).isSome := by
  induction l with
  | nil => exact absurd h (List.not_mem_nil e)
  | cons f t ih =>
    obtain ⟨k', v'⟩ := f
    simp only [assocLookup]
    by_cases hk : e.1 = k'
    · rw [if_pos hk]; rfl
    · rw [if_neg hk]
      rcases List.mem_cons.mp h with rfl | hm
      · exact absurd rfl hk
      · exact ih hm

theorem assocLookup_eq_of_mem_nodup {α : Type} (k : String) (v : α)
    (l : List (String × α)) :
    (l.map Prod.fst).Nodup → (k, v) ∈ l → assocLookup k l = some v := by
  induction l with
  | nil => intro _ h; exact absurd h (List.not_mem_nil _)
  | cons f t ih =>
    intro hnd h
    obtain ⟨k', v'⟩ := f
    simp only [List.map_cons, List.nodup_cons] at hnd
    obtain ⟨hknin, hndt⟩ := hnd
    simp only [assocLookup]
    rcases List.mem_cons.mp h with heq | hm
    · rw [Prod.mk.injEq] at heq
      obtain ⟨rfl, rfl⟩ := heq
      rw [if_pos rfl]
    · by_cases hk : k = k'
      · exfalso
        subst hk
        exact hknin (List.mem_map_of_mem Prod.fst hm)
      · rw [if_neg hk]
        exact ih hndt hm

theorem newFiles_isEmpty_iff (a b : FileTree) :
    (newFiles a b).isEmpty = true ↔
      ∀ k v, assocLookup k a = some v → assocLookup k b ≠ none := by
  rw [List.isEmpty_iff]
  unfold newFiles
  rw [List.map_eq_nil_iff, List.filter_eq_nil_iff]
  constructor
  · intro h k v hka hkb
    have hmem := mem_of_assocLookup k v a hka
    exact (h (k, v) hmem) (by simp [hkb])
  · intro h e he hcontra
    obtain ⟨v', hv'⟩ := Option.isSome_iff_exists.mp (assocLookup_isSome_of_mem e a he)
    exact h e.1 v' hv' (Option.isNone_iff_eq_none.mp hcontra)

theorem changedFiles_isEmpty_iff (a b : FileTree)
    (ha : (a.map Prod.fst).Nodup) :
    (changedFiles a b).isEmpty = true ↔
      ∀ k va wb, assocLookup k a = some va → assocLookup k b = some wb → wb = va := by
  rw [List.isEmpty_iff]
  unfold changedFiles
  rw [List.map_eq_nil_iff, List.filter_eq_nil_iff]
  constructor
  · intro h k va wb hka hkb
    have hmem := mem_of_assocLookup k va a hka
    have hp := h (k, va) hmem
    simp only [hkb] at hp
    by_contra hne
    exact hp (bne_iff_ne.mpr hne)
  · intro h e he hp
    have hlook : assocLookup e.1 a = some e.2 :=
      assocLookup_eq_of_mem_nodup e.1 e.2 a ha (by simpa using he)
    cases hb : assocLookup e.1 b with
    | none =>
      simp only [hb] at hp
      exact Bool.noConfusion hp
    | some wb =>
      simp only [hb] at hp
      exact (bne_iff_ne.mp hp) (h e.1 e.2 wb hlook hb)

theorem compare_with_temp_eq (t r : FileTree) :
    compare_with_temp t r = Except.ok ((changedFiles r t).isEmpty &&
      ((newFiles r t).isEmpty && (newFiles t r).isEmpty)) := by
  simp only [compare_with_temp]
  cases hA : (newFiles t r).isEmpty <;> cases hB : (newFiles r t).isEmpty <;>
    cases hC : (changedFiles r t).isEmpty <;> simp [hA, hB, hC]

/-- C3: for one entry, the check comparison over the fresh checkout tree
(`temp`) and the destination tree (`root`) returns `Ok false` exactly when
a discrepancy exists in either direction — a file of the fresh checkout
missing at the destination, a file of the destination missing in the fresh
checkout, or a file present in both with differing contents — and returns
`Ok true` exactly when the two trees are identical as maps from path to
content. -/
theorem compare_with_temp_correct (temp root : FileTree)
    (h1 : (temp.map Prod.fst).Nodup) (h2 : (root.map Prod.fst).Nodup) :
    (compare_with_temp temp root = Except.ok false ↔
      (∃ k v, assocLookup k temp = some v ∧ assocLookup k root = none)
      ∨ (∃ k v, assocLookup k root = some v ∧ assocLookup k temp = none)
      ∨ (∃ k v w, assocLookup k temp = some v ∧ assocLookup k root = some w ∧ v ≠ w))
    ∧ (compare_with_temp temp root = Except.ok true ↔
      ∀ k, assocLookup k temp = assocLookup k root) := by
  have hbr := compare_with_temp_eq temp root
  have htrue : ((changedFiles root temp).isEmpty &&
      ((newFiles root temp).isEmpty && (newFiles temp root).isEmpty)) = true ↔
      ∀ k, assocLookup k temp = assocLookup k root := by
    rw [Bool.and_eq_true, Bool.and_eq_true]
    rw [changedFiles_isEmpty_iff root temp h2, newFiles_isEmpty_iff,
      newFiles_isEmpty_iff]
    constructor
    · rintro ⟨hch, hnr, hnt⟩ k
      cases ht : assocLookup k temp with
      | none =>
        cases hr : assocLookup k root with
        | none => rfl
        | some vr => exact absurd ht (hnr k vr hr)
      | some vt =>
        cases hr : assocLookup k root with
        | none => exact absurd hr (hnt k vt ht)
        | some vr => rw [hch k vr vt hr ht]
    · intro hall
      refine ⟨fun k va wb hka hkb => ?_, fun k v hk => ?_, fun k v hk => ?_⟩
      · rw [hall k, hka] at hkb
        injection hkb with hv
        exact hv.symm
      · rw [hall k, hk]
        exact fun hcc => Option.noConfusion hcc
      · rw [← hall k, hk]
        exact fun hcc => Option.noConfusion hcc
  constructor
  · rw [hbr]
    simp only [Except.ok.injEq]
    rw [Bool.eq_false_iff, Ne, htrue]
    constructor
    · intro hne
      by_contra hnd
      rw [not_or, not_or] at hnd
      obtain ⟨hd1, hd2, hd3⟩ := hnd
      apply hne
      intro k
      cases ht : assocLookup k temp with
      | none =>
        cases hr : assocLookup k root with
        | none => rfl
        | some vr => exact (hd2 ⟨k, vr, hr, ht⟩).elim
      | some vt =>
        cases hr : assocLookup k root with
        | none => exact (hd1 ⟨k, vt, ht, hr⟩).elim
        | some vr =>
          by_cases hv : vt = vr
          · rw [hv]
          · exact (hd3 ⟨k, vt, vr, ht, hr, hv⟩).elim
    · rintro (⟨k, v, ht, hr⟩ | ⟨k, v, hr, ht⟩ | ⟨k, v, w, ht, hr, hvw⟩) hall
      · rw [hall k, hr] at ht
        exact Option.noConfusion ht
      · rw [← hall k, ht] at hr
        exact Option.noConfusion hr
      · rw [hall k, hr] at ht
        injection ht with hv
        exact hvw hv.symm
  · rw [hbr]
    simp only [Except.ok.injEq]
    exact htrue

/-- Witness for C3: two singleton trees binding the same path to different
contents have nodup keys and are compared by the theorem. -/
theorem compare_with_temp_correct_witness :
    (compare_with_temp [("a", "1")] [("a", "2")] = Except.ok false ↔
      (∃ k v, assocLookup k [("a", "1")] = some v ∧ assocLookup k [("a", "2")] = none)
      ∨ (∃ k v, assocLookup k [("a", "2")] = some v ∧ assocLookup k [("a", "1")] = none)
      ∨ (∃ k v w, assocLookup k [("a", "1")] = some v ∧ assocLookup k [("a", "2")] = some w ∧ v ≠ w))
    ∧ (compare_with_temp [("a", "1")] [("a", "2")] = Except.ok true ↔
      ∀ k, assocLookup k [("a", "1")] = assocLookup k [("a", "2")]) :=
  compare_with_temp_correct [("a", "1")] [("a", "2")] (by decide) (by decide)

/-- Witness for C10: the entry with `src = "/vendor/lib"` and the
absolute escape destination `dst = "/tmp/escape"` passes validation. -/
theorem soundness_accepts_absolute_paths_witness :
    check_parsed_item_soundness ⟨none, "/vendor/lib", "/tmp/escape"⟩ = true :=
  soundness_accepts_absolute_paths ⟨none, "/vendor/lib", "/tmp/escape"⟩
    ["vendor", "lib"] ["tmp", "escape"] (by decide) (by decide) (by decide) (by decide)

/-! ## Claim theorems about cache keys -/

/-- C4: `generate_key` is a total (hence deterministic, within and across
runs of the same build) pure function of the configuration with no error
result, and any two configurations agreeing on `(url, branch,
commit_hash)` receive the same key string. -/
theorem generate_key_deterministic (c1 c2 : RepositoryConfiguration)
    (hu : c1.url = c2.url) (hb : c1.branch = c2.branch)
    (hc : c1.commit_hash = c2.commit_hash) :
    generate_key c1 = generate_key c2 := by
  unfold generate_key
  rw [hu, hb, hc]

/-- Witness for C4: two configurations differing only in target path and
filters share one cache key. -/
theorem generate_key_deterministic_witness :
    generate_key ⟨"u", "b", "p1", [], some "c"⟩ =
      generate_key ⟨"u", "b", "p2", ["f"], some "c"⟩ :=
  generate_key_deterministic ⟨"u", "b", "p1", [], some "c"⟩
    ⟨"u", "b", "p2", ["f"], some "c"⟩ rfl rfl rfl

/-- C9: when no commit pin is present, `generate_key` hashes exactly the
same byte stream as `generate_url_branch_key` on the configuration's URL
and branch, so the two key functions agree. -/
theorem generate_key_agrees_url_branch (c : RepositoryConfiguration)
    (h : c.commit_hash = none) :
    generate_key c = generate_url_branch_key c.url c.branch := by
  unfold generate_key generate_url_branch_key
  rw [h]
  simp

/-- Witness for C9: a concrete unpinned configuration. -/
theorem generate_key_agrees_url_branch_witness :
    generate_key ⟨"u", "b", "p", [], none⟩ =
      generate_url_branch_key
        (RepositoryConfiguration.url ⟨"u", "b", "p", [], none⟩)
        (RepositoryConfiguration.branch ⟨"u", "b", "p", [], none⟩) :=
  generate_key_agrees_url_branch ⟨"u", "b", "p", [], none⟩ rfl

/-! ## Lemmas about the lock manager -/

theorem mem_lockKeys_ensure (s : LockState) (k k' : String) :
    k' ∈ lockKeys (ensureLock s k) ↔ k' ∈ lockKeys s ∨ k' = k := by
  unfold ensureLock
  cases h : assocLookup k s.locks with
  | some v =>
    constructor
    · exact Or.inl
    · rintro (hm | rfl)
      · exact hm
      · exact List.mem_map_of_mem Prod.fst (mem_of_assocLookup k' v s.locks h)
  | none =>
    simp [lockKeys]

theorem try_acquire_cases (s : LockState) (k : String) :
    try_acquire_lock s k = Except.error "Failed to acquire global lock"
    ∨ (∃ b, try_acquire_lock s k = Except.ok (ensureLock s k, b)) := by
  unfold try_acquire_lock
  by_cases hg : s.globalPoisoned = true
  · rw [if_pos hg]
    exact Or.inl rfl
  · rw [if_neg hg]
    by_cases hc : ((getLock (ensureLock s k) k).held
        || (getLock (ensureLock s k) k).poisoned) = true
    · rw [if_pos hc]
      exact Or.inr ⟨false, rfl⟩
    · rw [if_neg hc]
      exact Or.inr ⟨true, rfl⟩

theorem acquire_cases (s : LockState) (k : String) :
    acquire_lock s k = some (Except.ok (ensureLock s k))
    ∨ acquire_lock s k = none
    ∨ (∃ msg, acquire_lock s k = some (Except.error msg)) := by
  unfold acquire_lock
  by_cases hg : s.globalPoisoned = true
  · rw [if_pos hg]
    exact Or.inr (Or.inr ⟨"Failed to acquire global lock", rfl⟩)
  · rw [if_neg hg]
    by_cases hh : (getLock (ensureLock s k) k).held = true
    · rw [if_pos hh]
      exact Or.inr (Or.inl rfl)
    · rw [if_neg hh]
      by_cases hp : (getLock (ensureLock s k) k).poisoned = true
      · rw [if_pos hp]
        exact Or.inr (Or.inr ⟨"Failed to acquire repository lock", rfl⟩)
      · rw [if_neg hp]
        exact Or.inl rfl

theorem applyLockOp_cases (s : LockState) (op : Bool × String) :
    applyLockOp s op = s ∨ applyLockOp s op = ensureLock s op.2 := by
  unfold applyLockOp
  by_cases h1 : op.1 = true
  · rw [if_pos h1]
    rcases try_acquire_cases s op.2 with h | ⟨b, h⟩
    · rw [h]
      exact Or.inl rfl
    · rw [h]
      exact Or.inr rfl
  · rw [if_neg h1]
    rcases acquire_cases s op.2 with h | h | ⟨msg, h⟩
    · rw [h]
      exact Or.inr rfl
    · rw [h]
      exact Or.inl rfl
    · rw [h]
      exact Or.inl rfl

theorem lockKeys_mono (s : LockState) (op : Bool × String) (k' : String)
    (h : k' ∈ lockKeys s) : k' ∈ lockKeys (applyLockOp s op) := by
  rcases applyLockOp_cases s op with he | he <;> rw [he]
  · exact h
  · exact (mem_lockKeys_ensure s op.2 k').mpr (Or.inl h)

theorem applyLockOp_eq_ensure (s : LockState) (op : Bool × String)
    (hg : s.globalPoisoned = false)
    (hheld : (getLock (ensureLock s op.2) op.2).held = false)
    (hpois : (getLock (ensureLock s op.2) op.2).poisoned = false) :
    applyLockOp s op = ensureLock s op.2 := by
  obtain ⟨b, key⟩ := op
  cases b
  · simp [applyLockOp, acquire_lock, hg, hheld, hpois]
  · simp [applyLockOp, try_acquire_lock, hg, hheld, hpois]

theorem cleanLock_ensure (s : LockState) (k : String) (h : cleanLock s) :
    cleanLock (ensureLock s k) := by
  obtain ⟨hg, hl⟩ := h
  unfold ensureLock
  cases hlk : assocLookup k s.locks with
  | some v => exact ⟨hg, hl⟩
  | none =>
    refine ⟨hg, fun e he => ?_⟩
    rcases List.mem_append.mp he with hm | hm
    · exact hl e hm
    · rw [List.mem_singleton] at hm
      subst hm
      rfl

theorem getLock_clean (s : LockState) (k : String) (h : cleanLock s) :
    getLock s k = freshLock := by
  unfold getLock
  cases hlk : assocLookup k s.locks with
  | none => rfl
  | some v =>
    have hm := mem_of_assocLookup k v s.locks hlk
    exact h.2 (k, v) hm

theorem applyLockOp_clean_eq (s : LockState) (op : Bool × String)
    (h : cleanLock s) :
    applyLockOp s op = ensureLock s op.2 ∧ cleanLock (ensureLock s op.2) := by
  have hcl := cleanLock_ensure s op.2 h
  have hfresh := getLock_clean (ensureLock s op.2) op.2 hcl
  have hheld : (getLock (ensureLock s op.2) op.2).held = false := by
    rw [hfresh]
    rfl
  have hpois : (getLock (ensureLock s op.2) op.2).poisoned = false := by
    rw [hfresh]
    rfl

  exact ⟨applyLockOp_eq_ensure s op h.1 hheld hpois, hcl⟩

theorem runLockOps_keys (ops : List (Bool × String)) :
    ∀ s : LockState, cleanLock s → ∀ k : String,
      (k ∈ lockKeys (runLockOps s ops) ↔ k ∈ lockKeys s ∨ k ∈ ops.map Prod.snd) := by
  induction ops with
  | nil =>
    intro s _ k
    simp [runLockOps]
  | cons op rest ih =>
    intro s hcl k
    obtain ⟨heq, hcl2⟩ := applyLockOp_clean_eq s op hcl
    have hrun : runLockOps s (op :: rest) = runLockOps (ensureLock s op.2) rest := by
      simp only [runLockOps, List.foldl_cons, heq]
    rw [hrun, ih (ensureLock s op.2) hcl2 k, mem_lockKeys_ensure]
    simp only [List.map_cons, List.mem_cons]
    tauto

/-! ## Claim theorems about the lock manager -/

/-- C1 (code_bug demonstration): `acquire_lock` drops its per-key guard
before returning (`lock.rs` line 44), so a successful acquire leaves the
key's lock not held (still the fresh, unlocked value), and a second
`acquire_lock` on the same key succeeds immediately — while the first
caller's protected section is still running — instead of blocking until
that section completes, contradicting the claimed exclusivity. -/
theorem acquire_lock_no_exclusion :
    acquire_lock initLockState "k" = some (Except.ok ⟨false, [("k", freshLock)]⟩)
    ∧ getLock ⟨false, [("k", freshLock)]⟩ "k" = freshLock
    ∧ acquire_lock ⟨false, [("k", freshLock)]⟩ "k" =
        some (Except.ok ⟨false, [("k", freshLock)]⟩) :=
  ⟨rfl, rfl, rfl⟩

/-- C7 (counterexample): with the per-key mutex for `"k"` poisoned (and
free) and a healthy global mutex, `try_acquire_lock` returns `Ok(false)`
— a success value, not the `Err` the claim requires — because the code's
`Err(_) => Ok(false)` arm swallows the `try_lock` poison error. -/
theorem try_acquire_inner_poison_not_err :
    try_acquire_lock poisonedInnerState "k" = Except.ok (poisonedInnerState, false)
    ∧ ∀ msg, try_acquire_lock poisonedInnerState "k" ≠ Except.error msg := by
  have heq : try_acquire_lock poisonedInnerState "k" =
      Except.ok (poisonedInnerState, false) := rfl
  refine ⟨heq, fun msg hcontra => ?_⟩
  rw [heq] at hcontra
  exact Except.noConfusion hcontra

/-- C7 (amended): a poisoned global map mutex makes both `acquire_lock`
and `try_acquire_lock` return `Err`; a poisoned (free) per-key mutex makes
`acquire_lock` return `Err`, while `try_acquire_lock` returns `Ok(false)`
— it never reports a successful acquisition over a poisoned mutex. -/
theorem poisoned_mutex_behavior (s : LockState) (k : String) :
    (s.globalPoisoned = true →
      acquire_lock s k = some (Except.error "Failed to acquire global lock")
      ∧ try_acquire_lock s k = Except.error "Failed to acquire global lock")
    ∧ (s.globalPoisoned = false → getLock (ensureLock s k) k = ⟨false, true⟩ →
      acquire_lock s k = some (Except.error "Failed to acquire repository lock")
      ∧ try_acquire_lock s k = Except.ok (ensureLock s k, false)) := by
  constructor
  · intro hg
    constructor
    · unfold acquire_lock
      rw [if_pos hg]
    · unfold try_acquire_lock
      rw [if_pos hg]
  · intro hg hp
    have hheld : (getLock (ensureLock s k) k).held = false := by rw [hp]
    have hpois : (getLock (ensureLock s k) k).poisoned = true := by rw [hp]
    constructor
    · simp [acquire_lock, hg, hheld, hpois]
    · simp [try_acquire_lock, hg, hheld, hpois]

/-- Witness for C7's amended theorem: the two poisoned states. -/
theorem poisoned_mutex_behavior_witness :
    (acquire_lock poisonedGlobalState "k" =
        some (Except.error "Failed to acquire global lock")
      ∧ try_acquire_lock poisonedGlobalState "k" =
        Except.error "Failed to acquire global lock")
    ∧ (acquire_lock poisonedInnerState "k" =
        some (Except.error "Failed to acquire repository lock")
      ∧ try_acquire_lock poisonedInnerState "k" =
        Except.ok (ensureLock poisonedInnerState "k", false)) :=
  ⟨(poisoned_mutex_behavior poisonedGlobalState "k").1 rfl,
   (poisoned_mutex_behavior poisonedInnerState "k").2 rfl rfl⟩

/-- C8: the lock table only grows — no completed operation removes a key;
a call on key `op.2` (able to run, i.e. global mutex healthy and the
per-key mutex free) leaves its key present; and over any sequence of
completed calls from the initial manager state, the keys present are
exactly the keys ever passed to an acquire operation. -/
theorem lock_table_only_grows (s : LockState) (op : Bool × String)
    (ops : List (Bool × String)) (k : String)
    (hg : s.globalPoisoned = false)
    (hheld : (getLock (ensureLock s op.2) op.2).held = false)
    (hpois : (getLock (ensureLock s op.2) op.2).poisoned = false) :
    (∀ s0 : LockState, ∀ k', k' ∈ lockKeys s0 → k' ∈ lockKeys (applyLockOp s0 op))
    ∧ op.2 ∈ lockKeys (applyLockOp s op)
    ∧ (k ∈ lockKeys (runLockOps initLockState ops) ↔ k ∈ ops.map Prod.snd) := by
  refine ⟨fun s0 k' h => lockKeys_mono s0 op k' h, ?_, ?_⟩
  · rw [applyLockOp_eq_ensure s op hg hheld hpois]
    exact (mem_lockKeys_ensure s op.2 op.2).mpr (Or.inr rfl)
  · have hclean : cleanLock initLockState :=
      ⟨rfl, fun e he => absurd he (List.not_mem_nil e)⟩
    have hiff := runLockOps_keys ops initLockState hclean k
    simpa [initLockState, lockKeys] using hiff

/-- Witness for C8: a fresh manager, one acquire on `"j"`, and the trace
`try_acquire("a"); acquire("b")` with `k = "a"`. -/
theorem lock_table_only_grows_witness :
    (∀ s0 : LockState, ∀ k',
        k' ∈ lockKeys s0 → k' ∈ lockKeys (applyLockOp s0 (false, "j")))
    ∧ (false, "j").2 ∈ lockKeys (applyLockOp initLockState (false, "j"))
    ∧ ("a" ∈ lockKeys (runLockOps initLockState [(true, "a"), (false, "b")]) ↔
        "a" ∈ ([(true, "a"), (false, "b")].map Prod.snd)) :=
  lock_table_only_grows initLockState (false, "j") [(true, "a"), (false, "b")] "a"
    rfl rfl rfl

/-! ## Claim theorems about concurrent try-acquire -/

/-- Invariant of the two-caller interleaving: `innerHeld` names exactly
the caller whose program counter is `holding`, and the key table is never
corrupted — it holds at most the one key being acquired. -/
def TryInv (key : String) (s : TrySys) : Prop :=
  (∀ i : Fin 2, s.innerHeld = some i ↔ s.pcs i = TryPc.holding)
  ∧ (s.table = [] ∨ s.table = [key])

theorem tryInv_init (key : String) : TryInv key tryInit := by
  constructor
  · intro i
    constructor
    · intro h
      exact Option.noConfusion h
    · intro h
      exact TryPc.noConfusion h
  · exact Or.inl rfl

theorem tryInv_step (key : String) (s t : TrySys) (i : Fin 2)
    (hinv : TryInv key s) (hstep : tryStep key i s = some t) : TryInv key t := by
  obtain ⟨hheld, htab⟩ := hinv
  unfold tryStep at hstep
  cases hpc : s.pcs i with
  | start =>
    rw [hpc] at hstep
    injection hstep with ht
    subst ht
    refine ⟨fun j => ?_, ?_⟩
    · dsimp only
      rw [Function.update_apply]
      by_cases hij : j = i
      · rw [if_pos hij]
        constructor
        · intro hh
          have hold := (hheld j).mp hh
          rw [hij, hpc] at hold
          exact TryPc.noConfusion hold
        · intro hh
          exact TryPc.noConfusion hh
      · rw [if_neg hij]
        exact hheld j
    · dsimp only
      rcases htab with h | h <;> rw [h] <;> simp [insertKey]
  | ready =>
    rw [hpc] at hstep
    cases hih : s.innerHeld with
    | none =>
      rw [hih] at hstep
      injection hstep with ht
      subst ht
      refine ⟨fun j => ?_, ?_⟩
      · dsimp only
        rw [Function.update_apply]
        by_cases hij : j = i
        · rw [if_pos hij]
          subst hij
          simp
        · rw [if_neg hij]
          constructor
          · intro hh
            injection hh with hij2
            exact absurd hij2.symm hij
          · intro hh
            have hold := (hheld j).mpr hh
            rw [hih] at hold
            exact Option.noConfusion hold
      · exact htab
    | some m =>
      rw [hih] at hstep
      injection hstep with ht
      subst ht
      refine ⟨fun j => ?_, ?_⟩
      · dsimp only
        rw [Function.update_apply]
        by_cases hij : j = i
        · rw [if_pos hij]
          constructor
          · intro hh
            have hold := (hheld j).mp (hih.trans hh)
            rw [hij, hpc] at hold
            exact TryPc.noConfusion hold
          · intro hh
            exact TryPc.noConfusion hh
        · rw [if_neg hij, ← hih]
          exact hheld j
      · exact htab
  | holding =>
    rw [hpc] at hstep
    injection hstep with ht
    subst ht
    refine ⟨fun j => ?_, ?_⟩
    · dsimp only
      rw [Function.update_apply]
      constructor
      · intro hh
        exact Option.noConfusion hh
      · by_cases hij : j = i
        · rw [if_pos hij]
          intro hh
          exact TryPc.noConfusion hh
        · rw [if_neg hij]
          intro hh
          have hj := (hheld j).mpr hh
          have hi := (hheld i).mpr hpc
          rw [hi] at hj
          injection hj with he
          exact (hij he.symm).elim
    · exact htab
  | done r =>
    rw [hpc] at hstep
    exact Option.noConfusion hstep

theorem tryInv_reach (key : String) (s : TrySys) (h : TryReach key s) :
    TryInv key s := by
  induction h with
  | init => exact tryInv_init key
  | step i hr hst ih => exact tryInv_step key _ _ i ih hst

/-- C6: in every state reachable by interleaving two concurrent
`try_acquire_lock` callers on the same key — at most one caller holds the
per-key mutex; a caller running its `try_lock` while the other holds the
mutex completes immediately with result `false`; no caller that has not
finished is ever blocked (every such caller has an enabled step); and the
shared table is uncorrupted, holding at most the one key. -/
theorem try_acquire_concurrent_exclusion (key : String) (s : TrySys)
    (h : TryReach key s) :
    (∀ i j : Fin 2, s.pcs i = TryPc.holding → s.pcs j = TryPc.holding → i = j)
    ∧ (∀ i j : Fin 2, ∀ t : TrySys, s.pcs i = TryPc.holding → s.pcs j = TryPc.ready →
        tryStep key j s = some t → t.pcs j = TryPc.done false)
    ∧ (∀ i : Fin 2, (∀ r : Bool, s.pcs i ≠ TryPc.done r) → (tryStep key i s).isSome = true)
    ∧ (s.table = [] ∨ s.table = [key]) := by
  obtain ⟨hheld, htab⟩ := tryInv_reach key s h
  refine ⟨?_, ?_, ?_, htab⟩
  · intro i j hi hj
    have h1 := (hheld i).mpr hi
    have h2 := (hheld j).mpr hj
    rw [h1] at h2
    injection h2
  · intro i j t hi hj hstep
    have hinner := (hheld i).mpr hi
    unfold tryStep at hstep
    rw [hj, hinner] at hstep
    injection hstep with ht
    subst ht
    show Function.update s.pcs j (TryPc.done false) j = TryPc.done false
    rw [Function.update_same]
  · intro i hnd
    unfold tryStep
    cases hpc : s.pcs i with
    | start => rfl
    | ready => cases s.innerHeld <;> rfl
    | holding => rfl
    | done r => exact absurd hpc (hnd r)

/-- Witness for C6: the state `tryS2`, reached by two steps of caller 0,
in which caller 0 holds the per-key mutex. -/
theorem try_acquire_concurrent_exclusion_witness :
    (∀ i j : Fin 2, tryS2.pcs i = TryPc.holding → tryS2.pcs j = TryPc.holding → i = j)
    ∧ (∀ i j : Fin 2, ∀ t : TrySys, tryS2.pcs i = TryPc.holding →
        tryS2.pcs j = TryPc.ready → tryStep "k" j tryS2 = some t →
        t.pcs j = TryPc.done false)
    ∧ (∀ i : Fin 2, (∀ r : Bool, tryS2.pcs i ≠ TryPc.done r) →
        (tryStep "k" i tryS2).isSome = true)
    ∧ (tryS2.table = [] ∨ tryS2.table = ["k"]) :=
  try_acquire_concurrent_exclusion "k" tryS2
    (TryReach.step 0 (TryReach.step 0 TryReach.init rfl) rfl)

end GitWire
